import Mathlib

/-!
Verification of the block-parallel raster processing core of QGIS-pypopRF.

The development shallowly embeds the window planner, the zonal statistics
engine, the normalization calculator, the worker failure policy and the
window-by-window raster writers of `src/core/pypoprf` and proves the
specification's claims about them.  Raster pixel values and zone ids are
modelled as exact rationals; a missing value (pandas NaN) is modelled as
`Option.none`; a raster window's pixel data is modelled as a list.
-/

namespace PyPopRF

/-! ## Window planner (`raster.py`, `get_windows`) -/

/-- A rasterio `Window(col_off, row_off, width, height)` on the pixel grid. -/
structure Window where
  col_off : ℕ
  row_off : ℕ
  width : ℕ
  height : ℕ
deriving DecidableEq, Repr

/-- Pixel `(px, py)` (column, row) lies inside window `w`. -/
def Window.contains (w : Window) (px py : ℕ) : Prop :=
  w.col_off ≤ px ∧ px < w.col_off + w.width ∧
  w.row_off ≤ py ∧ py < w.row_off + w.height

instance (w : Window) (px py : ℕ) : Decidable (w.contains px py) := by
  unfold Window.contains; infer_instance

/-- `get_windows`: iterate `y in range(0, height, bh)` and `x in range(0, width, bw)`
in row-major order, emitting `Window(x, y, min(bw, width-x), min(bh, height-y))`
so that edge windows are clipped to the raster bounds. -/
def get_windows (width height bw bh : ℕ) : List Window :=
  (List.range' 0 ((height + bh - 1) / bh) bh).flatMap fun y =>
    (List.range' 0 ((width + bw - 1) / bw) bw).map fun x =>
      ⟨x, y, min bw (width - x), min bh (height - y)⟩

/-- Elements of a `range'` starting at 0: exactly the multiples of the step
below the extent (for a positive step and extent). -/
lemma mem_range'_iff (n s m : ℕ) (hs : 0 < s) (hn : 0 < n) :
    m ∈ List.range' 0 ((n + s - 1) / s) s ↔ s ∣ m ∧ m < n := by
  rw [List.mem_range']
  constructor
  · rintro ⟨i, hi, rfl⟩
    have h1 : i + 1 ≤ (n + s - 1) / s := hi
    rw [Nat.le_div_iff_mul_le hs] at h1
    have h2 : s * i + s ≤ n + s - 1 := by
      calc s * i + s = (i + 1) * s := by ring
        _ ≤ n + s - 1 := h1
    exact ⟨⟨i, by ring⟩, by omega⟩
  · rintro ⟨⟨i, rfl⟩, hm⟩
    refine ⟨i, ?_, by ring⟩
    have h2 : (i + 1) * s ≤ n + s - 1 := by
      calc (i + 1) * s = s * i + s := by ring
        _ ≤ n + s - 1 := by omega
    exact Nat.lt_of_lt_of_le (Nat.lt_succ_self i) (by rwa [Nat.le_div_iff_mul_le hs])

/-- Characterisation of membership in the planned window list. -/
lemma mem_get_windows (W H bw bh : ℕ) (hW : 0 < W) (hH : 0 < H)
    (hbw : 0 < bw) (hbh : 0 < bh) (w : Window) :
    w ∈ get_windows W H bw bh ↔
      ∃ x y, bw ∣ x ∧ x < W ∧ bh ∣ y ∧ y < H ∧
        w = ⟨x, y, min bw (W - x), min bh (H - y)⟩ := by
  unfold get_windows
  rw [List.mem_flatMap]
  constructor
  · rintro ⟨y, hy, hw⟩
    rw [List.mem_map] at hw
    obtain ⟨x, hx, rfl⟩ := hw
    rw [mem_range'_iff H bh y hbh hH] at hy
    rw [mem_range'_iff W bw x hbw hW] at hx
    exact ⟨x, y, hx.1, hx.2, hy.1, hy.2, rfl⟩
  · rintro ⟨x, y, h1, h2, h3, h4, rfl⟩
    refine ⟨y, ?_, ?_⟩
    · rw [mem_range'_iff H bh y hbh hH]; exact ⟨h3, h4⟩
    · rw [List.mem_map]
      exact ⟨x, by rw [mem_range'_iff W bw x hbw hW]; exact ⟨h1, h2⟩, rfl⟩

/-- `range'` from 0 with positive step is strictly increasing. -/
lemma pairwise_lt_range' (s : ℕ) (hs : 0 < s) :
    ∀ n a, List.Pairwise (· < ·) (List.range' a n s)
  | 0, _ => List.Pairwise.nil
  | n + 1, a => by
      rw [List.range'_succ]
      refine List.Pairwise.cons ?_ (pairwise_lt_range' s hs n (a + s))
      intro m hm
      rw [List.mem_range'] at hm
      obtain ⟨i, _, rfl⟩ := hm
      omega

/-- C4, existence half: every pixel of the extent is covered by the window
anchored at the enclosing tile corner. -/
lemma get_windows_covers (W H bw bh : ℕ) (hW : 0 < W) (hH : 0 < H)
    (hbw : 0 < bw) (hbh : 0 < bh) (px py : ℕ) (hx : px < W) (hy : py < H) :
    ∃ w ∈ get_windows W H bw bh, w.contains px py := by
  refine ⟨⟨bw * (px / bw), bh * (py / bh),
      min bw (W - bw * (px / bw)), min bh (H - bh * (py / bh))⟩, ?_, ?_⟩
  · rw [mem_get_windows W H bw bh hW hH hbw hbh]
    refine ⟨bw * (px / bw), bh * (py / bh), ⟨_, rfl⟩, ?_, ⟨_, rfl⟩, ?_, rfl⟩
    · calc bw * (px / bw) ≤ px := Nat.mul_div_le px bw
        _ < W := hx
    · calc bh * (py / bh) ≤ py := Nat.mul_div_le py bh
        _ < H := hy
  · have h1 : bw * (px / bw) ≤ px := Nat.mul_div_le px bw
    have h2 : px < bw * (px / bw) + bw := by
      have := Nat.mod_lt px hbw
      have := Nat.div_add_mod px bw
      omega
    have h3 : bh * (py / bh) ≤ py := Nat.mul_div_le py bh
    have h4 : py < bh * (py / bh) + bh := by
      have := Nat.mod_lt py hbh
      have := Nat.div_add_mod py bh
      omega
    refine ⟨h1, ?_, h3, ?_⟩
    · show px < bw * (px / bw) + min bw (W - bw * (px / bw))
      omega
    · show py < bh * (py / bh) + min bh (H - bh * (py / bh))
      omega

/-- C4, uniqueness half: two planned windows both containing a pixel coincide. -/
lemma get_windows_unique (W H bw bh : ℕ) (hW : 0 < W) (hH : 0 < H)
    (hbw : 0 < bw) (hbh : 0 < bh) (px py : ℕ)
    (w₁ w₂ : Window) (h₁ : w₁ ∈ get_windows W H bw bh)
    (h₂ : w₂ ∈ get_windows W H bw bh)
    (hc₁ : w₁.contains px py) (hc₂ : w₂.contains px py) : w₁ = w₂ := by
  rw [mem_get_windows W H bw bh hW hH hbw hbh] at h₁ h₂
  obtain ⟨x₁, y₁, ⟨i₁, rfl⟩, hx₁, ⟨j₁, rfl⟩, hy₁, rfl⟩ := h₁
  obtain ⟨x₂, y₂, ⟨i₂, rfl⟩, hx₂, ⟨j₂, rfl⟩, hy₂, rfl⟩ := h₂
  obtain ⟨ha₁, hb₁, hc₁', hd₁⟩ := hc₁
  obtain ⟨ha₂, hb₂, hc₂', hd₂⟩ := hc₂
  simp only [Window.mk.injEq]
  have key : ∀ s i₁ i₂ p : ℕ, 0 < s →
      s * i₁ ≤ p → p < s * i₁ + min s (W - s * i₁) →
      s * i₂ ≤ p → p < s * i₂ + min s (W - s * i₂) → i₁ = i₂ := by
    intro s i j p hs hli hri hlj hrj
    have ei : p / s = i := by
      apply Nat.div_eq_of_lt_le
      · calc i * s = s * i := by ring
          _ ≤ p := hli
      · calc p < s * i + min s (W - s * i) := hri
          _ ≤ s * i + s := by omega
          _ = (i + 1) * s := by ring
    have ej : p / s = j := by
      apply Nat.div_eq_of_lt_le
      · calc j * s = s * j := by ring
          _ ≤ p := hlj
      · calc p < s * j + min s (W - s * j) := hrj
          _ ≤ s * j + s := by omega
          _ = (j + 1) * s := by ring
    omega
  have keyH : ∀ s j₁ j₂ p : ℕ, 0 < s →
      s * j₁ ≤ p → p < s * j₁ + min s (H - s * j₁) →
      s * j₂ ≤ p → p < s * j₂ + min s (H - s * j₂) → j₁ = j₂ := by
    intro s i j p hs hli hri hlj hrj
    have ei : p / s = i := by
      apply Nat.div_eq_of_lt_le
      · calc i * s = s * i := by ring
          _ ≤ p := hli
      · calc p < s * i + min s (H - s * i) := hri
          _ ≤ s * i + s := by omega
          _ = (i + 1) * s := by ring
    have ej : p / s = j := by
      apply Nat.div_eq_of_lt_le
      · calc j * s = s * j := by ring
          _ ≤ p := hlj
      · calc p < s * j + min s (H - s * j) := hrj
          _ ≤ s * j + s := by omega
          _ = (j + 1) * s := by ring
    omega
  have hi : i₁ = i₂ := key bw i₁ i₂ px hbw ha₁ hb₁ ha₂ hb₂
  have hj : j₁ = j₂ := keyH bh j₁ j₂ py hbh hc₁' hd₁ hc₂' hd₂
  subst hi; subst hj
  exact ⟨rfl, rfl, rfl, rfl⟩

/-- Row-major strict order on windows: later rows first, then later columns. -/
def Window.rowMajorLT (a b : Window) : Prop :=
  a.row_off < b.row_off ∨ (a.row_off = b.row_off ∧ a.col_off < b.col_off)

/-- C4: for any positive extent and tile size the planner's window list
(i) covers every pixel of the extent by exactly one window, (ii) never reaches
outside the extent (edge windows are clipped, not padded), (iii) is strictly
row-major ordered, and (iv) collapses to the single whole-raster window when
the tile size is at least the extent in both dimensions. -/
theorem get_windows_partition (W H bw bh : ℕ) (hW : 1 ≤ W) (hH : 1 ≤ H)
    (hbw : 1 ≤ bw) (hbh : 1 ≤ bh) :
    (∀ px py, px < W → py < H →
      ∃! w, w ∈ get_windows W H bw bh ∧ w.contains px py) ∧
    (∀ w ∈ get_windows W H bw bh, ∀ px py, w.contains px py → px < W ∧ py < H) ∧
    (get_windows W H bw bh).Pairwise Window.rowMajorLT ∧
    (W ≤ bw → H ≤ bh → get_windows W H bw bh = [⟨0, 0, W, H⟩]) := by
  refine ⟨?_, ?_, ?_, ?_⟩
  · intro px py hx hy
    obtain ⟨w, hw, hc⟩ := get_windows_covers W H bw bh hW hH hbw hbh px py hx hy
    exact ⟨w, ⟨hw, hc⟩, fun w' hw' =>
      get_windows_unique W H bw bh hW hH hbw hbh px py w' w hw'.1 hw hw'.2 hc⟩
  · intro w hw px py hc
    rw [mem_get_windows W H bw bh hW hH hbw hbh] at hw
    obtain ⟨x, y, _, hxW, _, hyH, rfl⟩ := hw
    obtain ⟨h1, h2, h3, h4⟩ := hc
    simp only at h1 h2 h3 h4
    constructor
    · have : px < x + min bw (W - x) := h2
      omega
    · have : py < y + min bh (H - y) := h4
      omega
  · have hmaps : get_windows W H bw bh =
        ((List.range' 0 ((H + bh - 1) / bh) bh).map fun y =>
          (List.range' 0 ((W + bw - 1) / bw) bw).map fun x =>
            (⟨x, y, min bw (W - x), min bh (H - y)⟩ : Window)).flatten := rfl
    rw [hmaps, List.pairwise_flatten]
    constructor
    · intro l hl
      rw [List.mem_map] at hl
      obtain ⟨y, _, rfl⟩ := hl
      rw [List.pairwise_map]
      exact (pairwise_lt_range' bw hbw _ 0).imp fun hab => Or.inr ⟨rfl, hab⟩
    · rw [List.pairwise_map]
      refine (pairwise_lt_range' bh hbh _ 0).imp ?_
      intro y₁ y₂ h12 a ha b hb
      rw [List.mem_map] at ha hb
      obtain ⟨x₁, _, rfl⟩ := ha
      obtain ⟨x₂, _, rfl⟩ := hb
      exact Or.inl h12
  · intro hWbw hHbh
    have e₁ : (W + bw - 1) / bw = 1 := by
      apply Nat.div_eq_of_lt_le <;> omega
    have e₂ : (H + bh - 1) / bh = 1 := by
      apply Nat.div_eq_of_lt_le <;> omega
    unfold get_windows
    rw [e₁, e₂]
    simp [List.range', List.flatMap, Nat.sub_zero, min_eq_right hWbw, min_eq_right hHbh]

/-- Witness for C4's single-window clause: a 3×3 extent with 4×4 tiles
collapses to one whole-raster window. -/
theorem get_windows_partition_witness :
    get_windows 3 3 4 4 = [⟨0, 0, 3, 3⟩] :=
  (get_windows_partition 3 3 4 4 (by decide) (by decide) (by decide)
    (by decide)).2.2.2 (by decide) (by decide)

/-! ## Zonal statistics engine (`raster.py`, `get_raster_stats` / `aggregate_table`) -/

/-- One raster position inside a window: the zone (mastergrid) value and the
co-located target raster value. -/
structure Pixel where
  zone : ℚ
  val : ℚ
deriving DecidableEq, Repr

/-- One per-zone statistics record, the columns of the DataFrame row built by
`get_raster_stats`: count, sum, sum of squares, min, max. -/
structure ZStat where
  count : ℕ
  sum : ℚ
  sum2 : ℚ
  min : ℚ
  max : ℚ
deriving DecidableEq, Repr

/-- Statistics of a single valid pixel of value `v`. -/
def stat1 (v : ℚ) : ZStat := ⟨1, v, v * v, v, v⟩

/-- Combine two statistics records over disjoint pixel sets: counts, sums and
sums of squares add; min of mins; max of maxes. -/
def mergeS (a b : ZStat) : ZStat :=
  ⟨a.count + b.count, a.sum + b.sum, a.sum2 + b.sum2, min a.min b.min, max a.max b.max⟩

/-- Combine optional statistics records, where `none` is "no valid pixel". -/
def omerge : Option ZStat → Option ZStat → Option ZStat
  | none, b => b
  | some a, none => some a
  | some a, some b => some (mergeS a b)

/-- Target values selected by `np.logical_and(t != nodata, m == i)`: the valid
target pixels lying in zone `i`. -/
def selectVals (px : List Pixel) (nodata i : ℚ) : List ℚ :=
  (px.filter fun p => decide (p.zone = i ∧ p.val ≠ nodata)).map Pixel.val

/-- Statistics over a list of selected values; `none` when the selection is
empty (the `count < 1: continue` branch of `get_raster_stats`). -/
def statsOfVals (l : List ℚ) : Option ZStat :=
  l.foldr (fun v acc => omerge (some (stat1 v)) acc) none

/-- `get_raster_stats`: the per-window statistics table.  One row `(i, stats)`
for every distinct zone value `i` of the window other than the `skip`
sentinel that has at least one target-valid pixel. -/
def get_raster_stats (px : List Pixel) (nodata skip : ℚ) : List (ℚ × ZStat) :=
  ((px.map Pixel.zone).dedup).filterMap fun i =>
    if i = skip then none
    else (statsOfVals (selectVals px nodata i)).map fun s => (i, s)

/-- Per-id group aggregation of `aggregate_table`'s
`groupby("id").sum()/min()/max()` over a (concatenated) table of partial
rows: sum the counts, sums and sums of squares and take min-of-mins and
max-of-maxes of every row carrying id `i`; `none` when no row does. -/
def groupAgg (rows : List (ℚ × ZStat)) (i : ℚ) : Option ZStat :=
  (rows.filter fun r => decide (r.1 = i)).foldr
    (fun r acc => omerge (some r.2) acc) none

lemma mergeS_assoc (a b c : ZStat) : mergeS (mergeS a b) c = mergeS a (mergeS b c) := by
  unfold mergeS
  simp [add_assoc, min_assoc, max_assoc]

lemma mergeS_comm (a b : ZStat) : mergeS a b = mergeS b a := by
  unfold mergeS
  simp [add_comm, min_comm, max_comm]

lemma omerge_assoc (a b c : Option ZStat) :
    omerge (omerge a b) c = omerge a (omerge b c) := by
  cases a <;> cases b <;> cases c <;> simp [omerge, mergeS_assoc]

lemma omerge_comm (a b : Option ZStat) : omerge a b = omerge b a := by
  cases a <;> cases b <;> simp [omerge, mergeS_comm]

lemma omerge_none_right (a : Option ZStat) : omerge a none = a := by
  cases a <;> rfl

/-- Folding `omerge` over an appended list splits as an `omerge` of folds. -/
lemma foldr_omerge_append (f : α → Option ZStat) (l₁ l₂ : List α) :
    (l₁ ++ l₂).foldr (fun x acc => omerge (f x) acc) none =
      omerge (l₁.foldr (fun x acc => omerge (f x) acc) none)
             (l₂.foldr (fun x acc => omerge (f x) acc) none) := by
  induction l₁ with
  | nil => rfl
  | cons x xs ih => simp [List.foldr_cons, ih, omerge_assoc]

/-- Selected values of an appended window split as appended selections. -/
lemma selectVals_append (px₁ px₂ : List Pixel) (nodata i : ℚ) :
    selectVals (px₁ ++ px₂) nodata i =
      selectVals px₁ nodata i ++ selectVals px₂ nodata i := by
  unfold selectVals
  rw [List.filter_append, List.map_append]

lemma statsOfVals_append (l₁ l₂ : List ℚ) :
    statsOfVals (l₁ ++ l₂) = omerge (statsOfVals l₁) (statsOfVals l₂) :=
  foldr_omerge_append (fun v => some (stat1 v)) l₁ l₂

/-- `groupAgg` on a row prepended to the table. -/
lemma groupAgg_cons (r : ℚ × ZStat) (rows : List (ℚ × ZStat)) (i : ℚ) :
    groupAgg (r :: rows) i =
      if r.1 = i then omerge (some r.2) (groupAgg rows i) else groupAgg rows i := by
  unfold groupAgg
  by_cases h : r.1 = i
  · rw [if_pos h, List.filter_cons_of_pos (by simpa using h), List.foldr_cons]
  · rw [if_neg h, List.filter_cons_of_neg (by simpa using h)]

/-- Looking a zone id up via `groupAgg` in the table built over a duplicate-free
id list gives the statistics of that zone when it is listed (and not the skip
sentinel), and nothing otherwise. -/
lemma groupAgg_filterMap (px : List Pixel) (nodata skip i : ℚ) :
    ∀ ids : List ℚ, ids.Nodup →
      groupAgg (ids.filterMap fun j =>
          if j = skip then none
          else (statsOfVals (selectVals px nodata j)).map fun s => (j, s)) i =
        if i ∈ ids ∧ i ≠ skip then statsOfVals (selectVals px nodata i) else none := by
  intro ids hnd
  induction ids with
  | nil => simp [groupAgg]
  | cons j ids ih =>
      have hj : j ∉ ids := (List.nodup_cons.mp hnd).1
      have ih' := ih (List.nodup_cons.mp hnd).2
      by_cases hjs : j = skip
      · rw [List.filterMap_cons_none (by simp [hjs]), ih']
        by_cases his : i = skip
        · simp [his]
        · simp [List.mem_cons, his, hjs]
      · cases hst : statsOfVals (selectVals px nodata j) with
        | none =>
            rw [List.filterMap_cons_none (by simp [hjs, hst]), ih']
            by_cases hij : i = j
            · subst hij
              simp [hj, hjs, hst, List.mem_cons]
            · simp [List.mem_cons, hij]
        | some s =>
            rw [List.filterMap_cons]
            simp only [if_neg hjs, hst, Option.map_some']
            rw [groupAgg_cons, ih']
            by_cases hij : j = i
            · rw [if_pos hij]
              subst hij
              simp [hj, hjs, hst, omerge, List.mem_cons]
            · rw [if_neg hij]
              have hij' : ¬ i = j := fun h => hij h.symm
              simp [List.mem_cons, hij']

/-- A zone id occurring nowhere in the window selects no values. -/
lemma selectVals_eq_nil_of_not_mem (px : List Pixel) (nodata i : ℚ)
    (h : i ∉ px.map Pixel.zone) : selectVals px nodata i = [] := by
  unfold selectVals
  rw [List.map_eq_nil_iff, List.filter_eq_nil_iff]
  intro p hp
  simp only [decide_eq_true_eq, not_and, ne_eq, not_not]
  intro hz
  exact absurd (List.mem_map.mpr ⟨p, hp, hz⟩) h

/-- Per-zone view of the per-window table: looking a zone id up in the window's
partial table via `groupAgg` gives exactly the statistics of that zone's valid
pixels in the window (or `none` for the skip sentinel). -/
lemma groupAgg_get_raster_stats (px : List Pixel) (nodata skip i : ℚ) :
    groupAgg (get_raster_stats px nodata skip) i =
      if i = skip then none else statsOfVals (selectVals px nodata i) := by
  unfold get_raster_stats
  rw [groupAgg_filterMap px nodata skip i _ (List.nodup_dedup _)]
  by_cases his : i = skip
  · simp [his]
  · by_cases hmem : i ∈ (px.map Pixel.zone).dedup
    · simp [hmem, his]
    · rw [if_neg (by simp [hmem]), if_neg his,
        selectVals_eq_nil_of_not_mem px nodata i (by rwa [List.mem_dedup] at hmem)]
      rfl

/-- Group aggregation splits over concatenated tables. -/
lemma groupAgg_append (r₁ r₂ : List (ℚ × ZStat)) (i : ℚ) :
    groupAgg (r₁ ++ r₂) i = omerge (groupAgg r₁ i) (groupAgg r₂ i) := by
  unfold groupAgg
  rw [List.filter_append]
  exact foldr_omerge_append (fun (r : ℚ × ZStat) => some r.2) _ _

/-- Merging the per-window partial tables of a partition equals the table of
the single whole-raster window, at every zone id. -/
lemma groupAgg_flatten_parts (nodata skip i : ℚ) (parts : List (List Pixel)) :
    groupAgg ((parts.map fun w => get_raster_stats w nodata skip).flatten) i =
      groupAgg (get_raster_stats parts.flatten nodata skip) i := by
  induction parts with
  | nil => rfl
  | cons w parts ih =>
      rw [List.map_cons, List.flatten_cons, groupAgg_append, ih,
        groupAgg_get_raster_stats, groupAgg_get_raster_stats, List.flatten_cons,
        groupAgg_get_raster_stats, selectVals_append, statsOfVals_append]
      by_cases his : i = skip
      · simp [his, omerge]
      · simp [his]

instance : LeftCommutative fun (r : ℚ × ZStat) acc => omerge (some r.2) acc :=
  ⟨fun a b c => by
    rw [← omerge_assoc, ← omerge_assoc, omerge_comm (some a.2) (some b.2)]⟩

/-- Group aggregation is insensitive to the order of the partial rows. -/
lemma groupAgg_perm (rows rows' : List (ℚ × ZStat)) (h : rows.Perm rows') (i : ℚ) :
    groupAgg rows i = groupAgg rows' i := by
  unfold groupAgg
  exact List.Perm.foldr_eq (h.filter _) none

/-- C2: for every partition of a raster into windows, the per-zone
(count, sum, sum², min, max) obtained by merging the per-window partial
tables (group by id, sum counts/sums/sums-of-squares, min of mins, max of
maxes) equals the table computed from one whole-raster window, at every zone
id; and the merge is associative and commutative, so the merged result is
independent of the order in which the window tasks complete. -/
theorem zonal_stats_reduction_equivalence (nodata skip : ℚ) :
    (∀ parts : List (List Pixel), ∀ i : ℚ,
      groupAgg ((parts.map fun w => get_raster_stats w nodata skip).flatten) i =
        groupAgg (get_raster_stats parts.flatten nodata skip) i) ∧
    (∀ a b c : Option ZStat, omerge (omerge a b) c = omerge a (omerge b c)) ∧
    (∀ a b : Option ZStat, omerge a b = omerge b a) ∧
    (∀ parts parts' : List (List Pixel), parts.Perm parts' → ∀ i : ℚ,
      groupAgg ((parts.map fun w => get_raster_stats w nodata skip).flatten) i =
        groupAgg ((parts'.map fun w => get_raster_stats w nodata skip).flatten) i) := by
  refine ⟨fun parts i => groupAgg_flatten_parts nodata skip i parts,
    omerge_assoc, omerge_comm, ?_⟩
  intro parts parts' hperm i
  exact groupAgg_perm _ _ ((hperm.map _).flatten) i

/-- Witness for C2's order-independence clause at a concrete two-window pass. -/
theorem zonal_stats_reduction_equivalence_witness :
    groupAgg (([[⟨1, 2⟩], [⟨1, 3⟩]].map fun w => get_raster_stats w (-1) 0).flatten) 1 =
      groupAgg (([[⟨1, 3⟩], [⟨1, 2⟩]].map fun w => get_raster_stats w (-1) 0).flatten) 1 :=
  (zonal_stats_reduction_equivalence (-1) 0).2.2.2 _ _ (by decide) 1

/-- One row of `aggregate_table`'s output: id, merged count, sum, min, max, and
the derived mean and variance (variance floored at 0; the standard deviation
column √variance adds no information to the rational model and is omitted). -/
structure AggRow where
  id : ℚ
  count : ℕ
  sum : ℚ
  min : ℚ
  max : ℚ
  avg : ℚ
  var : ℚ
deriving DecidableEq, Repr

/-- `aggregate_table`: an empty input table yields an empty output table;
otherwise group the partial rows by id (summing counts, sums and sums of
squares, min of mins, max of maxes), derive mean and variance, and keep only
ids whose merged count exceeds `min_count`. -/
def aggregate_table (rows : List (ℚ × ZStat)) (min_count : ℕ) : List AggRow :=
  if rows = [] then []
  else ((rows.map Prod.fst).dedup).filterMap fun i =>
    match groupAgg rows i with
    | none => none
    | some s =>
        if min_count < s.count then
          some ⟨i, s.count, s.sum, s.min, s.max, s.sum / (s.count : ℚ),
            max (s.sum2 / (s.count : ℚ) - (s.sum / (s.count : ℚ)) * (s.sum / (s.count : ℚ))) 0⟩
        else none

/-- C10: a window in which no zone id other than the skip sentinel has a
target-valid pixel yields an empty per-window table (no exception), and
aggregating an empty table yields an empty table, so such a window
contributes nothing to the merged statistics. -/
theorem empty_window_contributes_nothing (px : List Pixel) (nodata skip : ℚ)
    (mc : ℕ) (h : ∀ p ∈ px, p.zone = skip ∨ p.val = nodata) :
    get_raster_stats px nodata skip = [] ∧ aggregate_table [] mc = [] := by
  refine ⟨?_, rfl⟩
  unfold get_raster_stats
  rw [List.filterMap_eq_nil_iff]
  intro j hj
  by_cases hjs : j = skip
  · simp [hjs]
  · rw [if_neg hjs]
    have hsel : selectVals px nodata j = [] := by
      unfold selectVals
      rw [List.map_eq_nil_iff, List.filter_eq_nil_iff]
      intro p hp
      simp only [decide_eq_true_eq, not_and, ne_eq, not_not]
      intro hz
      rcases h p hp with hzs | hv
      · exact absurd (hz.symm.trans hzs) hjs
      · exact hv
    rw [hsel]
    rfl

/-- Witness for C10 at a concrete window: one pixel on the sentinel zone and
one nodata pixel inside a real zone. -/
theorem empty_window_contributes_nothing_witness :
    get_raster_stats [⟨0, 5⟩, ⟨3, -1⟩] (-1) 0 = [] ∧ aggregate_table [] 1 = [] :=
  empty_window_contributes_nothing [⟨0, 5⟩, ⟨3, -1⟩] (-1) 0 1 (by decide)

/-! ## Normalization calculator (`dasymetric.py`, `_calculate_normalization`) -/

/-- One row of the outer-joined census × zonal-statistics table: the zone id,
the census population and the zonal prediction sum, either of the last two
possibly missing (pandas NaN) after the outer join. -/
structure NormRow where
  id : ℚ
  pop : Option ℚ
  sum : Option ℚ
deriving DecidableEq, Repr

/-- `np.divide(pop, sum, where=valid, out=nan)` with `valid = sum > 0`: the
factor is population / zonal sum when the zonal sum is present and positive,
and missing otherwise — also when the population itself is missing, since
NaN divided by anything stays NaN. -/
def normFactor (pop s : Option ℚ) : Option ℚ :=
  match s, pop with
  | some sv, some p => if 0 < sv then some (p / sv) else none
  | _, _ => none

/-- The `norm` column value of one merged row. -/
def rowNorm (r : NormRow) : Option ℚ := normFactor r.pop r.sum

/-- `pd.merge(census, sum_prob[["id", "sum"]], how="outer")` on zone id: every
census row is retained, with its matching zonal sum when one exists, and
every statistics-only row is appended with a missing population. -/
def outerJoin (census stats : List (ℚ × ℚ)) : List NormRow :=
  (census.map fun c =>
    match stats.find? (fun s => decide (s.1 = c.1)) with
    | some s => ⟨c.1, some c.2, some s.2⟩
    | none => ⟨c.1, some c.2, none⟩) ++
  ((stats.filter fun s => decide (∀ c ∈ census, c.1 ≠ s.1)).map
    fun s => ⟨s.1, none, some s.2⟩)

/-- `merged[merged["sum"].isna()]`: the unmatched-census diagnostic rows. -/
def unmatched_census (rows : List NormRow) : List NormRow :=
  rows.filter fun r => decide (r.sum = none)

/-- `(merged["sum"] * merged["norm"]).sum()`: the recomputed total population,
with the pandas sum skipping rows whose product is missing. -/
def totalCheck (rows : List NormRow) : ℚ :=
  (rows.map fun r =>
    match r.sum, rowNorm r with
    | some s, some f => s * f
    | _, _ => 0).sum

/-- `census[pop_column].sum()`. -/
def censusTotal (census : List (ℚ × ℚ)) : ℚ := (census.map Prod.snd).sum

/-- Result of `_calculate_normalization`: the merged factor table, the
recomputed total and the non-fatal conservation warning flag. -/
structure NormResult where
  table : List NormRow
  total : ℚ
  warned : Bool
deriving DecidableEq, Repr

/-- `_calculate_normalization`: outer-join census and zonal sums, attach the
normalization factor to every row, recompute the total and set the 1%
conservation warning flag.  The function always returns its table; the check
never raises. -/
def calculate_normalization (census stats : List (ℚ × ℚ)) : NormResult :=
  { table := outerJoin census stats
    total := totalCheck (outerJoin census stats)
    warned := decide (|totalCheck (outerJoin census stats) - censusTotal census| /
      censusTotal census > 1 / 100) }

/-- With duplicate-free statistics ids, `find?` on a listed id returns exactly
the listed row. -/
lemma find?_eq_of_nodup (stats : List (ℚ × ℚ))
    (hstats : (stats.map Prod.fst).Nodup) (s : ℚ × ℚ) (hs : s ∈ stats)
    (i : ℚ) (hi : s.1 = i) :
    stats.find? (fun t => decide (t.1 = i)) = some s := by
  induction stats with
  | nil => cases hs
  | cons t stats ih =>
      rw [List.map_cons, List.nodup_cons] at hstats
      by_cases ht : t.1 = i
      · rw [List.find?_cons_of_pos _ (by simpa using ht)]
        rcases List.mem_cons.mp hs with rfl | hs'
        · rfl
        · exact absurd (List.mem_map.mpr ⟨s, hs', hi.trans ht.symm⟩) hstats.1
      · rw [List.find?_cons_of_neg _ (by simpa using ht)]
        rcases List.mem_cons.mp hs with rfl | hs'
        · exact absurd hi ht
        · exact ih hstats.2 hs'

/-- Every row of the outer join comes from a census row (keeping its
population) or is a statistics-only row with a missing population. -/
lemma mem_outerJoin (census stats : List (ℚ × ℚ)) (r : NormRow)
    (hr : r ∈ outerJoin census stats) :
    (∃ c ∈ census, r.id = c.1 ∧ r.pop = some c.2) ∨
    (∃ s ∈ stats, r = ⟨s.1, none, some s.2⟩) := by
  unfold outerJoin at hr
  rcases List.mem_append.mp hr with h | h
  · rw [List.mem_map] at h
    obtain ⟨c, hc, hrc⟩ := h
    left
    refine ⟨c, hc, ?_⟩
    cases hf : stats.find? fun s => decide (s.1 = c.1) <;> rw [hf] at hrc <;>
      simp [← hrc]
  · rw [List.mem_map] at h
    obtain ⟨s, hs, hrs⟩ := h
    right
    exact ⟨s, (List.mem_filter.mp hs).1, hrs.symm⟩

/-- C3: when every census zone has a matching zonal sum and all zonal sums are
positive, the recomputed total Σ S_z·F_z equals the census total Σ T_z exactly
in the rational (pre-rounding) model, so the 1% conservation check does not
fire; and for arbitrary inputs the check only sets a non-fatal warning flag —
it is exactly the 1% relative-difference test — while the factor table is
still returned. -/
theorem normalization_conservation (census stats : List (ℚ × ℚ))
    (hmatch : ∀ c ∈ census, ∃ s ∈ stats, s.1 = c.1)
    (hpos : ∀ s ∈ stats, (∃ c ∈ census, c.1 = s.1) → 0 < s.2) :
    (calculate_normalization census stats).total = censusTotal census ∧
    (calculate_normalization census stats).warned = false ∧
    (∀ census' stats' : List (ℚ × ℚ),
      ((calculate_normalization census' stats').warned = true ↔
        |totalCheck (outerJoin census' stats') - censusTotal census'| /
          censusTotal census' > 1 / 100) ∧
      (calculate_normalization census' stats').table = outerJoin census' stats') := by
  have htot : totalCheck (outerJoin census stats) = censusTotal census := by
    unfold totalCheck outerJoin censusTotal
    rw [List.map_append, List.sum_append, List.map_map, List.map_map]
    have hcensus : List.map ((fun (r : NormRow) =>
        match r.sum, rowNorm r with
        | some s, some f => s * f
        | _, _ => 0) ∘ fun c =>
          match stats.find? (fun s => decide (s.1 = c.1)) with
          | some s => (⟨c.1, some c.2, some s.2⟩ : NormRow)
          | none => ⟨c.1, some c.2, none⟩) census = List.map Prod.snd census := by
      apply List.map_congr_left
      intro c hc
      dsimp only [Function.comp_apply]
      cases hf : stats.find? fun s => decide (s.1 = c.1) with
      | none =>
          obtain ⟨s, hs, hsc⟩ := hmatch c hc
          rw [List.find?_eq_none] at hf
          exact absurd (by simpa using hsc) (by simpa using hf s hs)
      | some s₀ =>
          have hs₀c : s₀.1 = c.1 := by simpa using List.find?_some hf
          have hpos₀ : 0 < s₀.2 :=
            hpos s₀ (List.mem_of_find?_eq_some hf) ⟨c, hc, hs₀c.symm⟩
          simp only [rowNorm, normFactor, if_pos hpos₀]
          rw [mul_comm, div_mul_cancel₀ _ (ne_of_gt hpos₀)]
    have hstatsonly : ((stats.filter fun s =>
        decide (∀ c ∈ census, c.1 ≠ s.1)).map ((fun (r : NormRow) =>
        match r.sum, rowNorm r with
        | some s, some f => s * f
        | _, _ => 0) ∘ fun s => (⟨s.1, none, some s.2⟩ : NormRow))).sum = 0 := by
      apply List.sum_eq_zero
      intro x hx
      rw [List.mem_map] at hx
      obtain ⟨s, _, hxs⟩ := hx
      simp [← hxs, rowNorm, normFactor]
    rw [hcensus, hstatsonly, add_zero]
  refine ⟨htot, ?_, ?_⟩
  · show decide (|totalCheck (outerJoin census stats) - censusTotal census| /
      censusTotal census > 1 / 100) = false
    rw [htot]
    simp
  · intro census' stats'
    exact ⟨by simp [calculate_normalization], rfl⟩

/-- Witness for C3 at the specification's scenario: census {1: 40, 2: 20,
3: 10}, zonal prediction sums 40 per zone. -/
theorem normalization_conservation_witness :
    (calculate_normalization [(1, 40), (2, 20), (3, 10)]
        [(1, 40), (2, 40), (3, 40)]).total =
      censusTotal [(1, 40), (2, 20), (3, 10)] ∧
    (calculate_normalization [(1, 40), (2, 20), (3, 10)]
        [(1, 40), (2, 40), (3, 40)]).warned = false :=
  ⟨(normalization_conservation _ _ (by decide) (by decide)).1,
   (normalization_conservation _ _ (by decide) (by decide)).2.1⟩

/-- C5: the per-row normalization factor equals population / zonal sum exactly
when the zonal sum is present and strictly positive, and is missing whenever
the zonal sum is absent or ≤ 0. -/
theorem norm_factor_definition :
    (∀ p s : ℚ, normFactor (some p) (some s) =
      if 0 < s then some (p / s) else none) ∧
    (∀ pop : Option ℚ, normFactor pop none = none) ∧
    (∀ pop : Option ℚ, ∀ s : ℚ, s ≤ 0 → normFactor pop (some s) = none) := by
  refine ⟨fun p s => rfl, fun pop => by cases pop <;> rfl, fun pop s hs => ?_⟩
  cases pop with
  | none => rfl
  | some p => exact if_neg (not_lt.mpr hs)

/-- Witness for C5 at a zone with a negative zonal sum. -/
theorem norm_factor_definition_witness :
    normFactor (some 5) (some (-2)) = none :=
  norm_factor_definition.2.2 (some 5) (-2) (by norm_num)

/-- `norm_mapping`: zone id → factor for every merged row whose factor is
valid (non-NaN); the dictionary driving `NormalizationWorker`. -/
def norm_mapping (rows : List NormRow) : List (ℚ × ℚ) :=
  rows.filterMap fun r => (rowNorm r).map fun f => (r.id, f)

/-- `NormalizationWorker.run` at a single pixel: a zone-nodata pixel, or a
zone with no valid factor in the mapping, becomes the output nodata value;
a mapped zone receives its factor. -/
def normalizationPixel (mapping : List (ℚ × ℚ)) (nodataOut mstNodata zone : ℚ) : ℚ :=
  if zone = mstNodata then nodataOut
  else
    match mapping.find? fun kv => decide (kv.1 = zone) with
    | some kv => kv.2
    | none => nodataOut

/-- C7: the normalization join is an outer join on zone id.  Every census row
and every statistics row is retained (never silently dropped); a census zone
missing from the statistics keeps a missing zonal sum and appears in the
unmatched-census diagnostic (no exception); a statistics zone missing from
the census keeps a missing population, receives an undefined factor, and
every pixel of that zone is written as the nodata sentinel by the
normalization worker. -/
theorem outer_join_unmatched_zones (census stats : List (ℚ × ℚ))
    (hstats : (stats.map Prod.fst).Nodup) :
    (∀ c ∈ census, ∃ r ∈ outerJoin census stats, r.id = c.1 ∧ r.pop = some c.2) ∧
    (∀ s ∈ stats, ∃ r ∈ outerJoin census stats, r.id = s.1 ∧ r.sum = some s.2) ∧
    (∀ c ∈ census, (∀ s ∈ stats, s.1 ≠ c.1) →
      ∃ r ∈ unmatched_census (outerJoin census stats),
        r.id = c.1 ∧ r.pop = some c.2 ∧ r.sum = none) ∧
    (∀ s ∈ stats, (∀ c ∈ census, c.1 ≠ s.1) →
      ∃ r ∈ outerJoin census stats, r.id = s.1 ∧ r.pop = none ∧
        r.sum = some s.2 ∧ rowNorm r = none ∧
        ∀ nodataOut mstNodata : ℚ,
          normalizationPixel (norm_mapping (outerJoin census stats))
            nodataOut mstNodata s.1 = nodataOut) := by
  refine ⟨?_, ?_, ?_, ?_⟩
  · intro c hc
    refine ⟨_, List.mem_append_left _ (List.mem_map.mpr ⟨c, hc, rfl⟩), ?_⟩
    cases hf : stats.find? fun s => decide (s.1 = c.1) <;> simp [hf]
  · intro s hs
    by_cases hm : ∃ c ∈ census, c.1 = s.1
    · obtain ⟨c, hc, hcs⟩ := hm
      refine ⟨_, List.mem_append_left _ (List.mem_map.mpr ⟨c, hc, rfl⟩), ?_⟩
      rw [find?_eq_of_nodup stats hstats s hs c.1 hcs.symm]
      exact ⟨hcs, rfl⟩
    · push_neg at hm
      refine ⟨⟨s.1, none, some s.2⟩, List.mem_append_right _
        (List.mem_map.mpr ⟨s, List.mem_filter.mpr ⟨hs, by simpa using hm⟩, rfl⟩),
        rfl, rfl⟩
  · intro c hc hnone
    have hf : stats.find? (fun s => decide (s.1 = c.1)) = none :=
      List.find?_eq_none.mpr fun s hs => by simpa using hnone s hs
    refine ⟨⟨c.1, some c.2, none⟩, ?_, rfl, rfl, rfl⟩
    apply List.mem_filter.mpr
    refine ⟨List.mem_append_left _ (List.mem_map.mpr ⟨c, hc, ?_⟩), by simp⟩
    rw [hf]
  · intro s hs hnc
    refine ⟨⟨s.1, none, some s.2⟩, List.mem_append_right _
      (List.mem_map.mpr ⟨s, List.mem_filter.mpr ⟨hs, by simpa using hnc⟩, rfl⟩),
      rfl, rfl, rfl, rfl, ?_⟩
    intro nodataOut mstNodata
    unfold normalizationPixel
    by_cases hz : s.1 = mstNodata
    · rw [if_pos hz]
    · rw [if_neg hz]
      have hfind : (norm_mapping (outerJoin census stats)).find?
          (fun kv => decide (kv.1 = s.1)) = none := by
        rw [List.find?_eq_none]
        intro kv hkv
        simp only [decide_eq_true_eq]
        unfold norm_mapping at hkv
        rw [List.mem_filterMap] at hkv
        obtain ⟨r, hr, hkvr⟩ := hkv
        rcases mem_outerJoin census stats r hr with ⟨c, hc, hid, _⟩ | ⟨t, _, rfl⟩
        · cases hn : rowNorm r with
          | none => rw [hn] at hkvr; cases hkvr
          | some f =>
              rw [hn] at hkvr
              injection hkvr with h
              subst h
              simp only
              rw [hid]
              exact hnc c hc
        · cases hkvr
      rw [hfind]

/-- Witness for C7 with one census-only zone and one statistics-only zone:
the census-only zone 1 is retained in the join with its population. -/
theorem outer_join_unmatched_zones_witness :
    ∃ r ∈ outerJoin [((1 : ℚ), (40 : ℚ))] [((2 : ℚ), (6 : ℚ))],
      r.id = 1 ∧ r.pop = some 40 :=
  (outer_join_unmatched_zones [(1, 40)] [(2, 6)] (by decide)).1 (1, 40)
    (by decide)

/-- `map_agesex`'s unit-weight census: population 1 for every zone id
(`norm["one"] = 1`). -/
def unitCensus (ids : List ℚ) : List (ℚ × ℚ) := ids.map fun i => (i, 1)

/-- `normalized["norm"] *= census[pop_column].values` at one row: the stratum
factor is the shared unit-weight factor times the stratum population. -/
def stratumNorm (unitRow : NormRow) (p : ℚ) : Option ℚ :=
  (rowNorm unitRow).map fun f => f * p

/-- C9: stratified mapping computes the zonal sums once, in a single
unit-weight normalization with population 1 for every zone; for every zone
matched in the statistics and every stratum population, the stratum factor —
the shared unit factor multiplied by the stratum population — coincides with
what a direct normalization with that population would produce, so no
per-stratum recomputation of zonal sums is needed. -/
theorem agesex_shared_normalization (ids : List ℚ) (stats : List (ℚ × ℚ))
    (hstats : (stats.map Prod.fst).Nodup) :
    ∀ i ∈ ids, ∀ s ∈ stats, s.1 = i →
      ∃ r ∈ outerJoin (unitCensus ids) stats, r.id = i ∧ r.pop = some 1 ∧
        r.sum = some s.2 ∧
        ∀ p : ℚ, stratumNorm r p = normFactor (some p) (some s.2) := by
  intro i hi s hs hsi
  refine ⟨⟨i, some 1, some s.2⟩, ?_, rfl, rfl, rfl, ?_⟩
  · apply List.mem_append_left
    apply List.mem_map.mpr
    refine ⟨(i, 1), List.mem_map.mpr ⟨i, hi, rfl⟩, ?_⟩
    rw [find?_eq_of_nodup stats hstats s hs i hsi]
  · intro p
    unfold stratumNorm rowNorm normFactor
    by_cases hp : 0 < s.2
    · simp only [if_pos hp, Option.map_some']
      rw [div_mul_eq_mul_div, one_mul]
    · simp only [if_neg hp, Option.map_none']

/-- Witness for C9 at one zone with zonal sum 4 and stratum population 10:
the shared factor 1/4 scales to 10/4. -/
theorem agesex_shared_normalization_witness :
    ∃ r ∈ outerJoin (unitCensus [7]) [(7, 4)], r.id = 7 ∧ r.pop = some 1 ∧
      r.sum = some 4 ∧
      ∀ p : ℚ, stratumNorm r p = normFactor (some p) (some 4) :=
  agesex_shared_normalization [7] [(7, 4)] (by decide) 7 (by decide)
    (7, 4) (by decide) rfl

/-! ## Worker failure policy (`workers.py`, `RasterWorker.run`;
`raster.py`, `parallel_raster_processing`) -/

/-- `RasterWorker.run`: the task body (which may raise) runs inside a
try/except; a raised exception is caught and logged with the worker's window
index, and the worker's result stays absent. -/
def runWorker {R : Type} (idx : ℕ) (body : Except String R) :
    Option R × List (ℕ × String) :=
  match body with
  | .ok r => (some r, [])
  | .error e => (none, [(idx, e)])

/-- The results of one pass over all submitted tasks, each task keyed by its
window index: every task runs, a failure never stops the remaining tasks. -/
def runPool {R : Type} (tasks : List (Except String R)) : List (Option R) :=
  tasks.enum.map fun ti => (runWorker ti.1 ti.2).1

/-- The error log lines produced by one pass. -/
def poolLog {R : Type} (tasks : List (Except String R)) : List (ℕ × String) :=
  (tasks.enum.map fun ti => (runWorker ti.1 ti.2).2).flatten

/-- `[w.result for w in workers if w.result is not None]`: result collection
skips absent results instead of failing. -/
def collectResults {R : Type} (results : List (Option R)) : List R :=
  results.filterMap id

lemma collect_enumFrom {R : Type} :
    ∀ (tasks : List (Except String R)) (n : ℕ),
      collectResults ((tasks.enumFrom n).map fun ti => (runWorker ti.1 ti.2).1) =
        tasks.filterMap fun t =>
          match t with
          | .ok r => some r
          | .error _ => none
  | [], _ => rfl
  | t :: tasks, n => by
      cases t with
      | ok r =>
          show collectResults (some r :: _) = _
          rw [show collectResults (some r ::
              ((tasks.enumFrom (n + 1)).map fun ti => (runWorker ti.1 ti.2).1)) =
            r :: collectResults
              ((tasks.enumFrom (n + 1)).map fun ti => (runWorker ti.1 ti.2).1) from rfl,
            collect_enumFrom tasks (n + 1)]
          rfl
      | error e =>
          show collectResults (none :: _) = _
          rw [show collectResults ((none : Option R) ::
              ((tasks.enumFrom (n + 1)).map fun ti => (runWorker ti.1 ti.2).1)) =
            collectResults
              ((tasks.enumFrom (n + 1)).map fun ti => (runWorker ti.1 ti.2).1) from rfl,
            collect_enumFrom tasks (n + 1)]
          rfl

/-- C8: a task whose body raises is caught inside the worker: it is logged
with the task's window index, its result stays absent, the exception never
reaches the caller, and the other tasks still run — the pass produces one
(possibly absent) result per submitted task, a successful task keeps its
value, and result collection skips the absent results instead of failing. -/
theorem worker_failure_containment {R : Type} (tasks : List (Except String R)) :
    (runPool tasks).length = tasks.length ∧
    (∀ i : ℕ, ∀ r : R, tasks[i]? = some (.ok r) →
      (runPool tasks)[i]? = some (some r)) ∧
    (∀ i : ℕ, ∀ e : String, tasks[i]? = some (.error e) →
      (runPool tasks)[i]? = some none ∧ (i, e) ∈ poolLog tasks) ∧
    collectResults (runPool tasks) =
      tasks.filterMap fun t =>
        match t with
        | .ok r => some r
        | .error _ => none := by
  refine ⟨?_, ?_, ?_, collect_enumFrom tasks 0⟩
  · unfold runPool
    rw [List.length_map, List.enum_length]
  · intro i r hi
    unfold runPool
    rw [List.getElem?_map, List.getElem?_enum, hi]
    rfl
  · intro i e hi
    constructor
    · unfold runPool
      rw [List.getElem?_map, List.getElem?_enum, hi]
      rfl
    · have henum : tasks.enum[i]? = some (i, .error e) := by
        rw [List.getElem?_enum, hi]
        rfl
      unfold poolLog
      rw [List.mem_flatten]
      exact ⟨[(i, e)], List.mem_map.mpr ⟨(i, Except.error e),
        List.getElem?_mem henum, rfl⟩, List.mem_singleton.mpr rfl⟩

/-- Witness for C8 with one succeeding and one failing task. -/
theorem worker_failure_containment_witness :
    (runPool [Except.ok (5 : ℚ), Except.error "boom"])[1]? = some none ∧
    (1, "boom") ∈ poolLog [Except.ok (5 : ℚ), Except.error "boom"] :=
  (worker_failure_containment [Except.ok (5 : ℚ), Except.error "boom"]).2.2.1
    1 "boom" rfl

/-! ## Dasymetric writer (`workers.py`, `DasymetricWorker.run`) -/

/-- `DasymetricWorker.run` at a single pixel: a pixel that is nodata in the
prediction raster or nodata in the normalization raster becomes the output
nodata; otherwise the output is prediction × factor.  The worker applies no
rounding. -/
def dasymetricPixel (predNodata nodataOut pred norm : ℚ) : ℚ :=
  if pred = predNodata ∨ norm = nodataOut then nodataOut
  else pred * norm

/-- `DasymetricWorker.run` over one window of co-located (prediction,
normalization) values. -/
def dasymetricWindow (predNodata nodataOut : ℚ) (pixels : List (ℚ × ℚ)) :
    List ℚ :=
  pixels.map fun pr => dasymetricPixel predNodata nodataOut pr.1 pr.2

/-- C1 as stated is false on the code: the dasymetric worker writes
prediction × factor without rounding.  At prediction 10 and factor 1/4 (both
valid against the −99 nodata sentinels) the output pixel is 5/2, which is not
the rounded product. -/
theorem dasymetric_rounding_counterexample :
    dasymetricPixel (-99) (-99) 10 (1/4) = 5/2 ∧
    dasymetricPixel (-99) (-99) 10 (1/4) ≠
      ((round ((10 : ℚ) * (1/4)) : ℤ) : ℚ) := by
  have hval : dasymetricPixel (-99) (-99) 10 (1/4) = 5/2 := by
    unfold dasymetricPixel
    rw [if_neg (by norm_num)]
    norm_num
  refine ⟨hval, ?_⟩
  rw [hval, show ((10 : ℚ) * (1/4)) = 5/2 by norm_num]
  norm_num [round_eq]

/-- C1 amended: per window, an output pixel that is valid in both inputs
equals prediction × factor exactly — no rounding is applied — and every pixel
that is nodata in the prediction raster or nodata in the normalization raster
becomes the output nodata sentinel. -/
theorem dasymetric_window_no_rounding (predNodata nodataOut : ℚ)
    (pixels : List (ℚ × ℚ)) (k : ℕ) :
    (dasymetricWindow predNodata nodataOut pixels)[k]? =
      (pixels[k]?).map fun pr =>
        if pr.1 = predNodata ∨ pr.2 = nodataOut then nodataOut
        else pr.1 * pr.2 := by
  unfold dasymetricWindow dasymetricPixel
  rw [List.getElem?_map]

/-! ## Window-by-window raster writers (`dasymetric.py`,
`_create_normalized_raster` / `_create_dasymetric_raster`) -/

/-- The pixel state of an output raster file during a pass: `none` marks a
pixel the pass never wrote (left at whatever a freshly created file holds),
`some v` a written value. -/
abbrev RasterFile := ℕ × ℕ → Option ℚ

/-- A freshly created output file: no pixel written yet. -/
def emptyFile : RasterFile := fun _ => none

/-- `dst.write(data, window)`: overwrite every pixel of the window. -/
def writeWindow (file : RasterFile) (w : Window) (data : ℕ × ℕ → ℚ) :
    RasterFile :=
  fun p => if w.contains p.1 p.2 then some (data p) else file p

/-- One window job of a writing pass: the window and its worker's result,
absent when the task failed. -/
abbrev WindowJob := Window × Option (ℕ × ℕ → ℚ)

/-- The per-window write of `_create_normalized_raster`'s collection loop:
`if worker.result is not None: dst.write(result, window)`. -/
def writeStep (file : RasterFile) (job : WindowJob) : RasterFile :=
  match job.2 with
  | some data => writeWindow file job.1 data
  | none => file

/-- `_create_normalized_raster`, by-block path: write the successful windows
one by one; a failed window is skipped entirely. -/
def create_normalized_raster (jobs : List WindowJob) : RasterFile :=
  jobs.foldl writeStep emptyFile

/-- The per-window copy into `_create_dasymetric_raster`'s full-extent output
buffer. -/
def copyStep (buf : ℕ × ℕ → ℚ) (job : WindowJob) : ℕ × ℕ → ℚ :=
  fun p =>
    match job.2 with
    | some data => if job.1.contains p.1 p.2 then data p else buf p
    | none => buf p

/-- `_create_dasymetric_raster`, by-block path: the output buffer starts
pre-filled with the nodata sentinel and successful windows are copied in. -/
def fillBuffer (nodata : ℚ) (jobs : List WindowJob) : ℕ × ℕ → ℚ :=
  jobs.foldl copyStep fun _ => nodata

/-- `_create_dasymetric_raster` writes the whole buffer once at the end. -/
def create_dasymetric_raster (W H : ℕ) (jobs : List WindowJob) (nodata : ℚ) :
    RasterFile :=
  writeWindow emptyFile ⟨0, 0, W, H⟩ (fillBuffer nodata jobs)

/-- C6 as stated is false on the code: in `_create_normalized_raster`'s
by-block path a failed window is never written, so its region stays in the
freshly created file's initial (unwritten) state instead of being set to the
−99 nodata sentinel. -/
theorem failed_window_unwritten_counterexample :
    create_normalized_raster [(⟨0, 0, 1, 1⟩, none)] (0, 0) = none ∧
    create_normalized_raster [(⟨0, 0, 1, 1⟩, none)] (0, 0) ≠ some (-99) := by
  refine ⟨rfl, fun h => ?_⟩
  rw [show create_normalized_raster [(⟨0, 0, 1, 1⟩, none)] (0, 0) = none from rfl] at h
  cases h

lemma writeStep_preserves (p : ℕ × ℕ) :
    ∀ (jobs : List WindowJob) (file : RasterFile), (file p).isSome →
      ((jobs.foldl writeStep file) p).isSome := by
  intro jobs
  induction jobs with
  | nil => intro file h; exact h
  | cons j jobs ih =>
      intro file h
      apply ih
      unfold writeStep writeWindow
      cases j.2 with
      | none => exact h
      | some data =>
          by_cases hc : j.1.contains p.1 p.2
          · simp [hc]
          · simpa [hc] using h

lemma writeStep_skips (p : ℕ × ℕ) :
    ∀ (jobs : List WindowJob) (file : RasterFile),
      (∀ job ∈ jobs, job.2.isSome → ¬ job.1.contains p.1 p.2) →
      (jobs.foldl writeStep file) p = file p := by
  intro jobs
  induction jobs with
  | nil => intro file _; rfl
  | cons j jobs ih =>
      intro file h
      rw [List.foldl_cons, ih _ fun job hj => h job (List.mem_cons_of_mem j hj)]
      unfold writeStep writeWindow
      cases hj2 : j.2 with
      | none => rfl
      | some data =>
          show (if j.1.contains p.1 p.2 then some (data p) else file p) = file p
          rw [if_neg (h j (List.mem_cons_self j jobs) (by rw [hj2]; rfl))]

lemma copyStep_skips (p : ℕ × ℕ) :
    ∀ (jobs : List WindowJob) (buf : ℕ × ℕ → ℚ),
      (∀ job ∈ jobs, job.2.isSome → ¬ job.1.contains p.1 p.2) →
      (jobs.foldl copyStep buf) p = buf p := by
  intro jobs
  induction jobs with
  | nil => intro buf _; rfl
  | cons j jobs ih =>
      intro buf h
      rw [List.foldl_cons, ih _ fun job hj => h job (List.mem_cons_of_mem j hj)]
      unfold copyStep
      cases hj2 : j.2 with
      | none => rfl
      | some data =>
          show (if j.1.contains p.1 p.2 then data p else buf p) = buf p
          rw [if_neg (h j (List.mem_cons_self j jobs) (by rw [hj2]; rfl))]

lemma writeStep_writes (p : ℕ × ℕ) :
    ∀ (jobs : List WindowJob) (file : RasterFile),
      (∃ job ∈ jobs, job.2.isSome ∧ job.1.contains p.1 p.2) →
      ((jobs.foldl writeStep file) p).isSome := by
  intro jobs
  induction jobs with
  | nil => rintro file ⟨job, hj, _⟩; cases hj
  | cons j jobs ih =>
      rintro file ⟨job, hj, hsome, hcont⟩
      rcases List.mem_cons.mp hj with rfl | hj'
      · rw [List.foldl_cons]
        apply writeStep_preserves
        unfold writeStep writeWindow
        cases hj2 : job.2 with
        | none => rw [hj2] at hsome; cases hsome
        | some data => simp [hcont]
      · exact ih _ ⟨job, hj', hsome, hcont⟩

/-- C6 amended: the population raster's by-block path pre-fills the whole
extent with the nodata sentinel and writes the buffer once, so every pixel of
the extent ends written, and a pixel covered by no successful window — in
particular the region of a failed window — ends exactly as the nodata
sentinel.  The normalization raster's path instead writes only the successful
windows: a pixel covered by a successful window ends written, but a pixel
covered by no successful window is left unwritten, not set to nodata. -/
theorem output_raster_pixel_state (W H : ℕ) (jobs : List WindowJob)
    (nodata : ℚ) (px py : ℕ) (hx : px < W) (hy : py < H) :
    (∃ v, create_dasymetric_raster W H jobs nodata (px, py) = some v) ∧
    ((∀ job ∈ jobs, job.2.isSome → ¬ job.1.contains px py) →
      create_dasymetric_raster W H jobs nodata (px, py) = some nodata) ∧
    ((∃ job ∈ jobs, job.2.isSome ∧ job.1.contains px py) →
      (create_normalized_raster jobs (px, py)).isSome) ∧
    ((∀ job ∈ jobs, job.2.isSome → ¬ job.1.contains px py) →
      create_normalized_raster jobs (px, py) = none) := by
  have hfull : (Window.mk 0 0 W H).contains px py := by
    exact ⟨Nat.zero_le px, by simpa using hx, Nat.zero_le py, by simpa using hy⟩
  refine ⟨?_, ?_, ?_, ?_⟩
  · exact ⟨fillBuffer nodata jobs (px, py), by
      unfold create_dasymetric_raster writeWindow
      rw [if_pos hfull]⟩
  · intro h
    unfold create_dasymetric_raster writeWindow
    rw [if_pos hfull]
    unfold fillBuffer
    rw [copyStep_skips (px, py) jobs _ h]
  · intro h
    exact writeStep_writes (px, py) jobs emptyFile h
  · intro h
    unfold create_normalized_raster
    rw [writeStep_skips (px, py) jobs emptyFile h]
    rfl

/-- Witness for C6's amended statement on a 1×1 raster whose only window task
failed: the population raster's pixel ends as the −99 sentinel while the
normalization raster's pixel is left unwritten. -/
theorem output_raster_pixel_state_witness :
    create_dasymetric_raster 1 1 [(⟨0, 0, 1, 1⟩, none)] (-99) (0, 0) =
      some (-99) ∧
    create_normalized_raster [(⟨0, 0, 1, 1⟩, none)] (0, 0) = none :=
  ⟨(output_raster_pixel_state 1 1 [(⟨0, 0, 1, 1⟩, none)] (-99) 0 0
      (by decide) (by decide)).2.1 (by decide),
   (output_raster_pixel_state 1 1 [(⟨0, 0, 1, 1⟩, none)] (-99) 0 0
      (by decide) (by decide)).2.2.2 (by decide)⟩

end PyPopRF
